import Mathlib

/-
Verification development for the decision scheduling and admission-control
subsystem of the IntelligentAgent repository (backend/app/parl/parl_engine.py
and backend/app/simulation/engine.py), shallowly embedded in Lean 4.

Conventions of the embedding:
* Python dicts holding a decision are modelled by `RawDecision`, a record of
  `Option String` fields; `none` models an absent key (absent and None
  coincide for the `target` field because the source reads it with
  `result.get("target", "") or ""`).
* A raised Python exception is modelled by `Except.error`; the source lines
  `result["thought"] += note` raise `KeyError` when the key is absent, which
  the embedding models in `appendThought`.
* `random.choice(l)` is modelled by `pyChoice l i` for an arbitrary index
  `i`, supplied as an extra argument; for nonempty `l` it returns an element
  of `l`, exactly the guarantee `random.choice` gives.
* Timestamps are natural numbers; `now - t` on naturals agrees with the
  Python comparison `now - t < 60` for the monotone traces considered.
-/

/-- Boolean test that `needle` is a prefix of `hay` (over characters). -/
def listPrefixB : List Char → List Char → Bool
  | [], _ => true
  | _ :: _, [] => false
  | a :: as, b :: bs => a == b && listPrefixB as bs

/-- Boolean test that `needle` occurs contiguously inside `hay`;
this is the semantics of the Python expression `needle in hay` on strings. -/
def listInfixB : List Char → List Char → Bool
  | needle, [] => needle.isEmpty
  | needle, c :: t => listPrefixB needle (c :: t) || listInfixB needle t

/-- Python `needle in hay` for strings. -/
def strIn (needle hay : String) : Bool := listInfixB needle.toList hay.toList

/-- Python `s.lower()`: lower-case each character (the source only handles
ASCII names and actions). -/
def pyLower (s : String) : String := String.mk (s.data.map Char.toLower)

/-- Python `l[-n:]`: the last `n` elements of a list. -/
def takeLastN (n : Nat) (l : List α) : List α := l.drop (l.length - n)

/-- Model of `random.choice l` given an oracle index `i`: some element of a
nonempty `l` (and a default for the empty list, which never occurs). -/
def pyChoice (l : List String) (i : Nat) : String := l.getD (i % l.length) ""

/-- A raw decision dictionary as produced by `_parse_response` (and the
argument/return type of `_sanitize_response`); `none` marks an absent key. -/
structure RawDecision where
  thought : Option String := none
  action : Option String := none
  target : Option String := none
  dialogue : Option String := none
deriving Repr, DecidableEq

/-- One entry of `PARLEngine.action_history[agent_name]`. -/
structure HistEntry where
  action : String
  target : String
deriving Repr, DecidableEq

/-- `valid_actions = ["move", "talk", "work", "rest"]` from `_sanitize_response`. -/
def valid_actions : List String := ["move", "talk", "work", "rest"]

/-- The hard-coded person markers of sanitizer rule 3:
`["vikram", "ananya", "tara", "priya", "dr.", "cdr."]`. -/
def person_markers : List String := ["vikram", "ananya", "tara", "priya", "dr.", "cdr."]

/-- The location pool used by sanitizer rule 5 when diversifying to `move`. -/
def rule5_locations : List String := ["Mess Hall", "Rec Room", "Medical Bay", "Crew Quarters"]

/-- The mutable state of one `_sanitize_response` call: the `result` dict and
the two local variables `action` and `target` (the local `target` is assigned
once at entry and never reassigned in the source). -/
structure SanState where
  res : RawDecision
  act : String
  tgt : String
deriving Repr, DecidableEq

/-- `result["thought"] += note`: raises `KeyError` when `thought` is absent. -/
def appendThought (st : SanState) (note : String) : Except String SanState :=
  match st.res.thought with
  | some t => Except.ok { st with res := { st.res with thought := some (t ++ note) } }
  | none => Except.error "KeyError: thought"

/-- The guarded variant used by rules 4 and 5:
`if "thought" in result: result["thought"] += note else: result["thought"] = fresh`. -/
def setOrAppendThought (r : RawDecision) (note fresh : String) : RawDecision :=
  match r.thought with
  | some t => { r with thought := some (t ++ note) }
  | none => { r with thought := some fresh }

/-- Sanitizer rule 1 (action validity): invalid actions become `rest`, except
the confuser `check`, which becomes `work`; a correction note is appended to
`thought` (the note interpolates the already-reassigned local `action`, hence
the literal text `rest` in it). -/
def rule1 (st : SanState) : Except String SanState :=
  if valid_actions.contains st.act then Except.ok st
  else if st.act == "check" then
    appendThought { st with res := { st.res with action := some "work" }, act := "work" }
      (" (Corrected from check)")
  else
    appendThought { st with res := { st.res with action := some "rest" }, act := "rest" }
      (" (Invalid action \x27rest\x27 corrected)")

/-- The bidirectional case-insensitive substring match of rule 2:
`target.lower() in name.lower() or name.lower() in target.lower()`. -/
def fuzzyNameMatch (target name : String) : Bool :=
  strIn (pyLower target) (pyLower name) || strIn (pyLower name) (pyLower target)

/-- Sanitizer rule 2 (ghost talking): a `talk` whose target matches no roster
name is demoted to `work` on `station duties`. -/
def rule2 (roster : List String) (st : SanState) : Except String SanState :=
  if st.act == "talk" then
    if roster.any (fun name => fuzzyNameMatch st.tgt name) then Except.ok st
    else
      appendThought
        { st with
          res := { st.res with action := some "work", target := some "station duties" },
          act := "work" }
        (" (Target \x27" ++ st.tgt ++ "\x27 not found, working instead)")
  else Except.ok st

/-- Sanitizer rule 3 (work-on-person): `work` whose target contains one of the
hard-coded person markers is reclassified as `talk` (the stored target is not
changed). -/
def rule3 (st : SanState) : Except String SanState :=
  if st.act == "work" && person_markers.any (fun x => strIn x (pyLower st.tgt)) then
    appendThought { st with res := { st.res with action := some "talk" }, act := "talk" }
      (" (Changed work-on-person to talk)")
  else Except.ok st

/-- The count computed by sanitizer rule 4: among the talk targets of the
last 3 history entries, how many fuzzily match the current (local) target
(`matching_talks` in the source; empty strings never match). -/
def rule4Matching (history : List HistEntry) (st : SanState) : Nat :=
  let recentTalkTargets :=
    ((takeLastN 3 history).filter (fun h => h.action == "talk")).map (fun h => pyLower h.target)
  let targetLower := if st.tgt == "" then "" else pyLower st.tgt
  (recentTalkTargets.filter
    (fun t => !(t == "") && !(targetLower == "") && (strIn t targetLower || strIn targetLower t))).length

/-- The state produced when rule 4 fires: `work` on `regular duties`, with
the guarded thought update. -/
def rule4LoopBreak (st : SanState) : SanState :=
  { st with
    act := "work",
    res := setOrAppendThought
      { st.res with action := some "work", target := some "regular duties" }
      (" (Breaking conversation loop - time to work)")
      ("Breaking conversation loop - time to work") }

/-- Sanitizer rule 4 (talk-loop breaking): if at least 2 of the last 3 history
entries are talks whose targets fuzzily match the current target, force
`work` on `regular duties`. Total: the thought update is guarded. -/
def rule4 (history : List HistEntry) (st : SanState) : SanState :=
  if st.act == "talk" then
    if 2 ≤ rule4Matching history st then rule4LoopBreak st else st
  else st

/-- The trigger of sanitizer rule 5: the last 4 history entries all carry the
current action. -/
def rule5Stuck (history : List HistEntry) (st : SanState) : Bool :=
  ((takeLastN 4 history).map (fun h => h.action)).all (fun a => a == st.act)

/-- The state produced when rule 5 fires: a random alternative action with a
synthesized target (for `talk` the target is left untouched, as in the
source, which has no `talk` branch in its target synthesis). -/
def rule5Diversify (pA pL : Nat) (st : SanState) : SanState :=
  let alternatives := valid_actions.filter (fun a => !(a == st.act))
  let newAction := pyChoice alternatives pA
  let res1 := setOrAppendThought { st.res with action := some newAction }
    (" (Diversified from " ++ st.act ++ " pattern)")
    ("Diversified from " ++ st.act ++ " pattern")
  let res2 :=
    if newAction == "move" then { res1 with target := some (pyChoice rule5_locations pL) }
    else if newAction == "work" then { res1 with target := some "station systems" }
    else if newAction == "rest" then { res1 with target := some "self" }
    else res1
  { st with res := res2, act := newAction }

/-- Sanitizer rule 5 (monotony breaking): if the history has at least 4
entries and the last 4 all have the current action, diversify. -/
def rule5 (history : List HistEntry) (pA pL : Nat) (st : SanState) : SanState :=
  if 4 ≤ history.length then
    if rule5Stuck history st then rule5Diversify pA pL st
    else st
  else st

/-- The entry of `_sanitize_response`: the initial local variables
`action = result.get("action", "rest").lower()` and
`target = result.get("target", "") or ""`. -/
def initState (raw : RawDecision) : SanState :=
  { res := raw, act := pyLower (raw.action.getD "rest"), tgt := raw.target.getD "" }

/-- `PARLEngine._sanitize_response`, for one agent: takes the raw decision,
the agent's current history list, the roster (`context["all_agent_names"]`)
and the two `random.choice` oracles of rule 5; returns the repaired decision
together with the updated history, or the Python exception it raises. -/
def sanitizeResponse (raw : RawDecision) (history : List HistEntry) (roster : List String)
    (pA pL : Nat) : Except String (RawDecision × List HistEntry) :=
  match rule1 (initState raw) with
  | Except.error e => Except.error e
  | Except.ok st1 =>
  match rule2 roster st1 with
  | Except.error e => Except.error e
  | Except.ok st2 =>
  match rule3 st2 with
  | Except.error e => Except.error e
  | Except.ok st3 =>
    let st4 := rule4 history st3
    let st5 := rule5 history pA pL st4
    Except.ok (st5.res, takeLastN 10 (history ++ [{ action := st5.act, target := st5.tgt }]))

/-- The weighted action set of `PARLEngine._fallback_decision`. -/
def fallback_actions : List String := ["work", "rest", "move"]

/-- The per-action fallback target pools of `_fallback_decision`
(`targets.get(action, ["self"])`). -/
def fallbackTargets (action : String) : List String :=
  if action == "work" then ["station systems", "research", "maintenance"]
  else if action == "rest" then ["self"]
  else if action == "move" then ["Mess Hall", "Crew Quarters", "Rec Room", "Medical Bay"]
  else ["self"]

/-- `PARLEngine._fallback_decision`, with the two `random.choice` calls
replaced by oracle indices. -/
def fallbackDecision (pFa pFt : Nat) : RawDecision :=
  let action := pyChoice fallback_actions pFa
  { thought := some "I should continue my routine.",
    action := some action,
    target := some (pyChoice (fallbackTargets action) pFt),
    dialogue := none }

/-- The observable outcome of one transport attempt inside `reason`:
`raised` models an exception from `_call_groq` / `_call_ollama` (timeout,
HTTP error, explicit 429 re-raise), `parseFail` models a returned `None` or
falsy dict (non-200 status, or `_parse_response` failing to extract JSON),
and `parsed d` models a successfully parsed truthy decision dict. -/
inductive AttemptOutcome where
  | raised
  | parseFail
  | parsed (d : RawDecision)
deriving Repr, DecidableEq

/-- The result of a `reason` call: the returned decision, the agent's
resulting action history, how many transport attempts were made, and whether
the heuristic fallback produced the decision. -/
structure ReasonOut where
  dec : RawDecision
  hist : List HistEntry
  attemptsUsed : Nat
  usedFallback : Bool
deriving Repr, DecidableEq

/-- The retry loop of `PARLEngine.reason` (`for attempt in range(3)`), from
attempt index `i` with `fuel` iterations left. Each iteration performs one
transport call; a raised exception, a falsy result, or a sanitizer exception
falls through (after a backoff sleep, irrelevant here) to the next iteration;
a sanitized decision is returned at once. When the loop ends,
`_fallback_decision` is returned. -/
def reasonLoop (outs : Nat → AttemptOutcome) (roster : List String) (pA pL pFa pFt : Nat) :
    Nat → Nat → List HistEntry → ReasonOut
  | 0, _, hist => { dec := fallbackDecision pFa pFt, hist := hist, attemptsUsed := 0, usedFallback := true }
  | fuel + 1, i, hist =>
    match outs i with
    | AttemptOutcome.raised =>
      let r := reasonLoop outs roster pA pL pFa pFt fuel (i + 1) hist
      { r with attemptsUsed := r.attemptsUsed + 1 }
    | AttemptOutcome.parseFail =>
      let r := reasonLoop outs roster pA pL pFa pFt fuel (i + 1) hist
      { r with attemptsUsed := r.attemptsUsed + 1 }
    | AttemptOutcome.parsed d =>
      match sanitizeResponse d hist roster pA pL with
      | Except.error _ =>
        let r := reasonLoop outs roster pA pL pFa pFt fuel (i + 1) hist
        { r with attemptsUsed := r.attemptsUsed + 1 }
      | Except.ok (dec, h9) =>
        { dec := dec, hist := h9, attemptsUsed := 1, usedFallback := false }

/-- `PARLEngine.reason` for one agent: three attempts, then fallback. -/
def runReason (outs : Nat → AttemptOutcome) (roster : List String) (pA pL pFa pFt : Nat)
    (hist : List HistEntry) : ReasonOut :=
  reasonLoop outs roster pA pL pFa pFt 3 0 hist

/-- `SimulationEngine.cache_duration` (decisions kept for 3 steps). -/
def cache_duration : Nat := 3

/-- `SimulationEngine.decision_cache` lookup (`self.decision_cache.get(name)`):
an association list keyed by agent name, holding `(decision, step_made)`. -/
def cacheGet (cache : List (String × RawDecision × Nat)) (name : String) :
    Option (RawDecision × Nat) :=
  (cache.find? (fun e => e.1 == name)).map (fun e => e.2)

/-- Dict assignment `self.decision_cache[name] = (d, step)`. -/
def cachePut (cache : List (String × RawDecision × Nat)) (name : String) (d : RawDecision)
    (step : Nat) : List (String × RawDecision × Nat) :=
  (name, d, step) :: cache.filter (fun e => !(e.1 == name))

/-- Outcome of the cache consultation in `SimulationEngine._simulation_loop`:
the decision used for the agent, the cache afterwards, and whether
`_run_parl_step` (the orchestrator / LLM path) was invoked. -/
structure StepOutcome where
  result : RawDecision
  cache : List (String × RawDecision × Nat)
  calledLLM : Bool
deriving Repr, DecidableEq

/-- The cache check of `_simulation_loop`:
`cached = self.decision_cache.get(agent.name)` followed by
`if cached and (self.step_count - cached[1]) < self.cache_duration`. A hit
returns the cached decision unchanged; a miss calls the orchestrator (whose
result is the parameter `fresh`) and stores `(fresh, step_count)`. -/
def processDecision (cache : List (String × RawDecision × Nat)) (name : String)
    (stepCount duration : Nat) (fresh : RawDecision) : StepOutcome :=
  match cacheGet cache name with
  | some (d, created) =>
    if stepCount - created < duration then
      { result := d, cache := cache, calledLLM := false }
    else
      { result := fresh, cache := cachePut cache name fresh stepCount, calledLLM := true }
  | none => { result := fresh, cache := cachePut cache name fresh stepCount, calledLLM := true }

/-- The mutable state of a `RateLimiter`: `request_timestamps` and
`token_timestamps` (the latter holding `(cost, timestamp)` pairs, in the
tuple order used by the source: `t[0]` is the cost, `t[1]` the timestamp). -/
structure RLState where
  reqTimes : List Nat
  tokEntries : List (Nat × Nat)
deriving Repr, DecidableEq

/-- The pruning of `request_timestamps`: keep `t` with `now - t < 60`. -/
def pruneReqs (now : Nat) (l : List Nat) : List Nat := l.filter (fun t => now - t < 60)

/-- The pruning of `token_timestamps`: keep `(c, t)` with `now - t < 60`. -/
def pruneToks (now : Nat) (l : List (Nat × Nat)) : List (Nat × Nat) :=
  l.filter (fun e => now - e.2 < 60)

/-- `sum(t[0] for t in self.token_timestamps)` after pruning. -/
def tokSum (l : List (Nat × Nat)) : Nat := (l.map (fun e => e.1)).sum

/-- The condition under which one iteration of `wait_for_capacity`'s loop
admits the request instead of sleeping: after pruning, the request count is
below `rpm_limit`, and either the token reservation check passes or the
token window is empty (in the source, the empty case skips the
`if self.token_timestamps:` sleep and falls through to the reservation).
Both sleep branches always have `wait_time > 0` after pruning, so a blocked
iteration never admits. -/
def admissionOk (rpm tpm : Nat) (s : RLState) (now est : Nat) : Bool :=
  let reqs := pruneReqs now s.reqTimes
  let toks := pruneToks now s.tokEntries
  decide (reqs.length < rpm) && (decide (tokSum toks + est ≤ tpm) || toks.isEmpty)

/-- The externally visible events of a `RateLimiter`: a successful admission
(the iteration of `wait_for_capacity` that appends the timestamp and the
reservation at wall-clock time `now`), and a call to `update_actual_usage`. -/
inductive RLEvent where
  | adm (now est : Nat)
  | correct (now est actual : Nat)
deriving Repr, DecidableEq

def RLEvent.time : RLEvent → Nat
  | RLEvent.adm now _ => now
  | RLEvent.correct now _ _ => now

/-- One event's effect on the limiter state: an admission requires
`admissionOk` (otherwise the trace is not a possible execution and the run is
rejected); `update_actual_usage` appends the positive excess only. -/
def rlStep (rpm tpm : Nat) (s : RLState) : RLEvent → Option RLState
  | RLEvent.adm now est =>
    if admissionOk rpm tpm s now est then
      some { reqTimes := pruneReqs now s.reqTimes ++ [now],
             tokEntries := pruneToks now s.tokEntries ++ [(est, now)] }
    else none
  | RLEvent.correct now est actual =>
    if est < actual then
      some { s with tokEntries := s.tokEntries ++ [(actual - est, now)] }
    else some s

/-- Run a list of events through the limiter. -/
def runTrace (rpm tpm : Nat) : RLState → List RLEvent → Option RLState
  | s, [] => some s
  | s, e :: es =>
    match rlStep rpm tpm s e with
    | some s2 => runTrace rpm tpm s2 es
    | none => none

/-- Event times are nondecreasing and bounded below by `t0` (wall-clock time
under the single FCFS lock is monotone). -/
def timesMono : Nat → List RLEvent → Prop
  | _, [] => True
  | t0, e :: es => t0 ≤ e.time ∧ timesMono e.time es

/-- Membership of an instant `tau` in the trailing 60-second window ending
at `t`. -/
def inWindow (t tau : Nat) : Bool := decide (tau ≤ t) && decide (t - tau < 60)

/-- Number of admissions of a trace that fall in the window ending at `t`. -/
def admitCount (es : List RLEvent) (t : Nat) : Nat :=
  es.countP (fun e =>
    match e with
    | RLEvent.adm now _ => inWindow t now
    | RLEvent.correct _ _ _ => false)

/-- Total estimated cost reserved by admissions in the window ending at `t`. -/
def admitCost (es : List RLEvent) (t : Nat) : Nat :=
  (es.map (fun e =>
    match e with
    | RLEvent.adm now est => if inWindow t now then est else 0
    | RLEvent.correct _ _ _ => 0)).sum

/-- Total overshoot appended by `update_actual_usage` calls in the window
ending at `t`. -/
def correctCost (es : List RLEvent) (t : Nat) : Nat :=
  (es.map (fun e =>
    match e with
    | RLEvent.adm _ _ => 0
    | RLEvent.correct now est actual =>
      if est < actual && inWindow t now then actual - est else 0)).sum

/-- Facts about one sanitizer rule's state transition that every rule
preserves: the dialogue field and the local `target` are untouched, a present
thought stays present, a valid local action stays valid, and the local
`action` variable stays in sync with the lower-cased, `rest`-defaulted
`result["action"]` entry. -/
def Preserves (st st2 : SanState) : Prop :=
  st2.res.dialogue = st.res.dialogue ∧
  st2.tgt = st.tgt ∧
  (st.res.thought.isSome = true → st2.res.thought.isSome = true) ∧
  (st.act ∈ valid_actions → st2.act ∈ valid_actions) ∧
  (st.act = pyLower (st.res.action.getD "rest") →
    st2.act = pyLower (st2.res.action.getD "rest"))


/-- Sample raw decisions used to instantiate the theorems below. -/
def sampleNoThought : RawDecision := { action := some "fly" }

def sampleFly : RawDecision :=
  { thought := some "t", action := some "fly", target := some "roof" }

def sampleGhostTalk : RawDecision :=
  { thought := some "t", action := some "talk", target := some "Nobody", dialogue := some "hi" }

/-- The value `_sanitize_response` computes on `sampleGhostTalk` with roster
`["Alice"]`: demoted to `work`, dialogue retained. -/
def sampleGhostTalkOut : RawDecision × List HistEntry :=
  ({ thought := some ("t (Target \x27Nobody\x27 not found, working instead)"),
     action := some "work", target := some "station duties", dialogue := some "hi" },
   [{ action := "work", target := "Nobody" }])

def sampleWorkBob : RawDecision :=
  { thought := some "t", action := some "work", target := some "Bob" }

def sampleAnanya : RawDecision :=
  { thought := some "t", action := some "work", target := some "Dr. Ananya Iyer" }

def sampleGhost : RawDecision :=
  { thought := some "t", action := some "talk", target := some "Ghost" }

/-- The value `_sanitize_response` computes on `sampleGhost` with roster
`["Alice"]`: the returned target is replaced but the history entry keeps the
raw target. -/
def sampleGhostOut : RawDecision × List HistEntry :=
  ({ thought := some ("t (Target \x27Ghost\x27 not found, working instead)"),
     action := some "work", target := some "station duties", dialogue := none },
   [{ action := "work", target := "Ghost" }])


/-- A well-formed parsed decision used for the reason-loop theorems. -/
def sampleGood : RawDecision :=
  { thought := some "t", action := some "work", target := some "fixing" }

/-- Transport behavior: first attempt returns unparsable text, second attempt
returns a well-formed decision. -/
def outsMalformedThenGood : Nat → AttemptOutcome :=
  fun i => if i == 0 then AttemptOutcome.parseFail else AttemptOutcome.parsed sampleGood

theorem pyChoice_mem (l : List String) (i : Nat) (h : l ≠ []) : pyChoice l i ∈ l := by
  have hlen : 0 < l.length := List.length_pos.mpr h
  have hm : i % l.length < l.length := Nat.mod_lt _ hlen
  unfold pyChoice
  rw [List.getD_eq_getElem?_getD, List.getElem?_eq_getElem hm]
  exact List.getElem_mem hm

theorem mem_valid_toLower (a : String) (h : a ∈ valid_actions) : pyLower a = a := by
  simp only [valid_actions, List.mem_cons, List.not_mem_nil, or_false] at h
  rcases h with rfl | rfl | rfl | rfl <;> decide

theorem contains_of_mem {a : String} {l : List String} (h : a ∈ l) : l.contains a = true := by
  simpa using h

theorem mem_of_contains {a : String} {l : List String} (h : l.contains a = true) : a ∈ l := by
  simpa using h

theorem alternatives_ne_nil (s : String) :
    valid_actions.filter (fun a => !(a == s)) ≠ [] := by
  intro hnil
  have h1 := List.filter_eq_nil_iff.mp hnil
  have hm := h1 "move" (by decide)
  have ht := h1 "talk" (by decide)
  simp only [Bool.not_eq_true', beq_eq_false_iff_ne, ne_eq, not_not] at hm ht
  exact absurd (hm.trans ht.symm) (by decide)

theorem Preserves.refl (st : SanState) : Preserves st st :=
  ⟨rfl, rfl, id, id, id⟩

theorem Preserves.trans {a b c : SanState} (h1 : Preserves a b) (h2 : Preserves b c) :
    Preserves a c :=
  ⟨h2.1.trans h1.1, h2.2.1.trans h1.2.1,
   fun h => h2.2.2.1 (h1.2.2.1 h),
   fun h => h2.2.2.2.1 (h1.2.2.2.1 h),
   fun h => h2.2.2.2.2 (h1.2.2.2.2 h)⟩

theorem appendThought_pres (st : SanState) (note : String) (st2 : SanState)
    (h : appendThought st note = Except.ok st2) :
    st2.res.dialogue = st.res.dialogue ∧ st2.tgt = st.tgt ∧ st2.act = st.act ∧
    st2.res.action = st.res.action ∧ st2.res.target = st.res.target ∧
    st2.res.thought.isSome = true := by
  unfold appendThought at h
  cases hth : st.res.thought with
  | none => rw [hth] at h; cases h
  | some t =>
    rw [hth] at h
    cases h
    exact ⟨rfl, rfl, rfl, rfl, rfl, rfl⟩

theorem appendThought_ok (st : SanState) (note t : String) (h : st.res.thought = some t) :
    appendThought st note
      = Except.ok { st with res := { st.res with thought := some (t ++ note) } } := by
  simp [appendThought, h]

theorem setOrAppendThought_dialogue (r : RawDecision) (note fresh : String) :
    (setOrAppendThought r note fresh).dialogue = r.dialogue := by
  unfold setOrAppendThought; cases r.thought <;> rfl

theorem setOrAppendThought_action (r : RawDecision) (note fresh : String) :
    (setOrAppendThought r note fresh).action = r.action := by
  unfold setOrAppendThought; cases r.thought <;> rfl

theorem setOrAppendThought_isSome (r : RawDecision) (note fresh : String) :
    (setOrAppendThought r note fresh).thought.isSome = true := by
  unfold setOrAppendThought; cases r.thought <;> rfl

theorem rule1_pres (st st2 : SanState) (h : rule1 st = Except.ok st2) :
    Preserves st st2 ∧ st2.act ∈ valid_actions := by
  unfold rule1 at h
  by_cases h1 : valid_actions.contains st.act = true
  · rw [if_pos h1] at h
    cases h
    exact ⟨Preserves.refl st, mem_of_contains h1⟩
  · rw [if_neg h1] at h
    by_cases h2 : (st.act == "check") = true
    · rw [if_pos h2] at h
      obtain ⟨hd, htg, ha, hact, htgt, hth⟩ := appendThought_pres _ _ _ h
      refine ⟨⟨hd, htg, fun _ => hth, fun _ => ?_, fun _ => ?_⟩, ?_⟩
      · rw [ha]; exact (show ("work" : String) ∈ valid_actions by decide)
      · rw [ha, hact]; exact (show ("work" : String) = pyLower "work" by decide)
      · rw [ha]; exact (show ("work" : String) ∈ valid_actions by decide)
    · rw [if_neg h2] at h
      obtain ⟨hd, htg, ha, hact, htgt, hth⟩ := appendThought_pres _ _ _ h
      refine ⟨⟨hd, htg, fun _ => hth, fun _ => ?_, fun _ => ?_⟩, ?_⟩
      · rw [ha]; exact (show ("rest" : String) ∈ valid_actions by decide)
      · rw [ha, hact]; exact (show ("rest" : String) = pyLower "rest" by decide)
      · rw [ha]; exact (show ("rest" : String) ∈ valid_actions by decide)

theorem rule2_pres (roster : List String) (st st2 : SanState)
    (h : rule2 roster st = Except.ok st2) : Preserves st st2 := by
  unfold rule2 at h
  by_cases h1 : (st.act == "talk") = true
  · rw [if_pos h1] at h
    by_cases h2 : (roster.any fun name => fuzzyNameMatch st.tgt name) = true
    · rw [if_pos h2] at h; cases h; exact Preserves.refl st
    · rw [if_neg h2] at h
      obtain ⟨hd, htg, ha, hact, htgt, hth⟩ := appendThought_pres _ _ _ h
      refine ⟨hd, htg, fun _ => hth, fun _ => ?_, fun _ => ?_⟩
      · rw [ha]; exact (show ("work" : String) ∈ valid_actions by decide)
      · rw [ha, hact]; exact (show ("work" : String) = pyLower "work" by decide)
  · rw [if_neg h1] at h; cases h; exact Preserves.refl st

theorem rule3_pres (st st2 : SanState) (h : rule3 st = Except.ok st2) : Preserves st st2 := by
  unfold rule3 at h
  by_cases h1 : (st.act == "work" && person_markers.any fun x => strIn x (pyLower st.tgt)) = true
  · rw [if_pos h1] at h
    obtain ⟨hd, htg, ha, hact, htgt, hth⟩ := appendThought_pres _ _ _ h
    refine ⟨hd, htg, fun _ => hth, fun _ => ?_, fun _ => ?_⟩
    · rw [ha]; exact (show ("talk" : String) ∈ valid_actions by decide)
    · rw [ha, hact]; exact (show ("talk" : String) = pyLower "talk" by decide)
  · rw [if_neg h1] at h; cases h; exact Preserves.refl st

theorem rule4LoopBreak_pres (st : SanState) : Preserves st (rule4LoopBreak st) := by
  refine ⟨?_, rfl, fun _ => ?_, fun _ => ?_, fun _ => ?_⟩
  · exact (setOrAppendThought_dialogue _ _ _)
  · exact (setOrAppendThought_isSome _ _ _)
  · exact (show ("work" : String) ∈ valid_actions by decide)
  · show ("work" : String) = pyLower ((rule4LoopBreak st).res.action.getD "rest")
    rw [show (rule4LoopBreak st).res.action = some "work" from
      (setOrAppendThought_action _ _ _)]
    decide

theorem rule4_pres (history : List HistEntry) (st : SanState) :
    Preserves st (rule4 history st) := by
  unfold rule4
  by_cases h1 : (st.act == "talk") = true
  · rw [if_pos h1]
    by_cases h2 : 2 ≤ rule4Matching history st
    · rw [if_pos h2]; exact rule4LoopBreak_pres st
    · rw [if_neg h2]; exact Preserves.refl st
  · rw [if_neg h1]; exact Preserves.refl st

theorem rule5Diversify_act (pA pL : Nat) (st : SanState) :
    (rule5Diversify pA pL st).act
      = pyChoice (valid_actions.filter (fun a => !(a == st.act))) pA := rfl

theorem rule5Diversify_act_mem (pA pL : Nat) (st : SanState) :
    (rule5Diversify pA pL st).act ∈ valid_actions := by
  rw [rule5Diversify_act]
  exact List.mem_of_mem_filter (pyChoice_mem _ _ (alternatives_ne_nil st.act))

theorem rule5Diversify_res_action (pA pL : Nat) (st : SanState) :
    (rule5Diversify pA pL st).res.action
      = some (pyChoice (valid_actions.filter (fun a => !(a == st.act))) pA) := by
  by_cases h1 : (pyChoice (valid_actions.filter (fun a => !(a == st.act))) pA == "move") = true <;>
  by_cases h2 : (pyChoice (valid_actions.filter (fun a => !(a == st.act))) pA == "work") = true <;>
  by_cases h3 : (pyChoice (valid_actions.filter (fun a => !(a == st.act))) pA == "rest") = true <;>
  simp [rule5Diversify, h1, h2, h3, setOrAppendThought_action]

theorem rule5Diversify_res_dialogue (pA pL : Nat) (st : SanState) :
    (rule5Diversify pA pL st).res.dialogue = st.res.dialogue := by
  by_cases h1 : (pyChoice (valid_actions.filter (fun a => !(a == st.act))) pA == "move") = true <;>
  by_cases h2 : (pyChoice (valid_actions.filter (fun a => !(a == st.act))) pA == "work") = true <;>
  by_cases h3 : (pyChoice (valid_actions.filter (fun a => !(a == st.act))) pA == "rest") = true <;>
  simp [rule5Diversify, h1, h2, h3, setOrAppendThought_dialogue]

theorem rule5Diversify_res_isSome (pA pL : Nat) (st : SanState) :
    (rule5Diversify pA pL st).res.thought.isSome = true := by
  by_cases h1 : (pyChoice (valid_actions.filter (fun a => !(a == st.act))) pA == "move") = true <;>
  by_cases h2 : (pyChoice (valid_actions.filter (fun a => !(a == st.act))) pA == "work") = true <;>
  by_cases h3 : (pyChoice (valid_actions.filter (fun a => !(a == st.act))) pA == "rest") = true <;>
  simp [rule5Diversify, h1, h2, h3, setOrAppendThought_isSome]

theorem rule5Diversify_pres (pA pL : Nat) (st : SanState) :
    Preserves st (rule5Diversify pA pL st) := by
  refine ⟨rule5Diversify_res_dialogue pA pL st, rfl,
    fun _ => rule5Diversify_res_isSome pA pL st,
    fun _ => rule5Diversify_act_mem pA pL st, fun _ => ?_⟩
  rw [rule5Diversify_act, rule5Diversify_res_action]
  exact (mem_valid_toLower _ (by
    rw [← rule5Diversify_act pA pL st]
    exact rule5Diversify_act_mem pA pL st)).symm

theorem rule5_pres (history : List HistEntry) (pA pL : Nat) (st : SanState) :
    Preserves st (rule5 history pA pL st) := by
  unfold rule5
  by_cases h1 : 4 ≤ history.length
  · rw [if_pos h1]
    by_cases h2 : rule5Stuck history st = true
    · rw [if_pos h2]; exact rule5Diversify_pres pA pL st
    · rw [if_neg h2]; exact Preserves.refl st
  · rw [if_neg h1]; exact Preserves.refl st

theorem rule1_total (st : SanState) (t : String) (h : st.res.thought = some t) :
    ∃ st2, rule1 st = Except.ok st2 := by
  unfold rule1
  by_cases h1 : valid_actions.contains st.act = true
  · exact ⟨st, by rw [if_pos h1]⟩
  · rw [if_neg h1]
    by_cases h2 : (st.act == "check") = true
    · rw [if_pos h2]; exact ⟨_, appendThought_ok _ _ t h⟩
    · rw [if_neg h2]; exact ⟨_, appendThought_ok _ _ t h⟩

theorem rule2_total (roster : List String) (st : SanState) (t : String)
    (h : st.res.thought = some t) : ∃ st2, rule2 roster st = Except.ok st2 := by
  unfold rule2
  by_cases h1 : (st.act == "talk") = true
  · rw [if_pos h1]
    by_cases h2 : (roster.any fun name => fuzzyNameMatch st.tgt name) = true
    · exact ⟨st, by rw [if_pos h2]⟩
    · rw [if_neg h2]; exact ⟨_, appendThought_ok _ _ t h⟩
  · exact ⟨st, by rw [if_neg h1]⟩

theorem rule3_total (st : SanState) (t : String) (h : st.res.thought = some t) :
    ∃ st2, rule3 st = Except.ok st2 := by
  unfold rule3
  by_cases h1 : (st.act == "work" && person_markers.any fun x => strIn x (pyLower st.tgt)) = true
  · rw [if_pos h1]; exact ⟨_, appendThought_ok _ _ t h⟩
  · exact ⟨st, by rw [if_neg h1]⟩

theorem sanitize_ok_spec (raw : RawDecision) (history : List HistEntry) (roster : List String)
    (pA pL : Nat) (r : RawDecision × List HistEntry)
    (h : sanitizeResponse raw history roster pA pL = Except.ok r) :
    ∃ st5 : SanState,
      r = (st5.res, takeLastN 10 (history ++ [{ action := st5.act, target := st5.tgt }]))
      ∧ Preserves (initState raw) st5
      ∧ st5.act ∈ valid_actions := by
  unfold sanitizeResponse at h
  cases e1 : rule1 (initState raw) with
  | error e => rw [e1] at h; cases h
  | ok st1 =>
    rw [e1] at h
    dsimp only at h
    cases e2 : rule2 roster st1 with
    | error e => rw [e2] at h; cases h
    | ok st2 =>
      rw [e2] at h
      dsimp only at h
      cases e3 : rule3 st2 with
      | error e => rw [e3] at h; cases h
      | ok st3 =>
        rw [e3] at h
        dsimp only at h
        cases h
        obtain ⟨p1, v1⟩ := rule1_pres _ _ e1
        have p2 := rule2_pres roster _ _ e2
        have p3 := rule3_pres _ _ e3
        have p4 := rule4_pres history st3
        have p5 := rule5_pres history pA pL (rule4 history st3)
        refine ⟨rule5 history pA pL (rule4 history st3), rfl, ?_, ?_⟩
        · exact (((p1.trans p2).trans p3).trans p4).trans p5
        · exact p5.2.2.2.1 (p4.2.2.2.1 (p3.2.2.2.1 (p2.2.2.2.1 v1)))

theorem sanitize_total (raw : RawDecision) (history : List HistEntry) (roster : List String)
    (pA pL : Nat) (t : String) (h : raw.thought = some t) :
    ∃ r, sanitizeResponse raw history roster pA pL = Except.ok r := by
  have h0 : (initState raw).res.thought = some t := h
  obtain ⟨st1, e1⟩ := rule1_total _ t h0
  obtain ⟨p1, v1⟩ := rule1_pres _ _ e1
  obtain ⟨t1, ht1⟩ := Option.isSome_iff_exists.mp (p1.2.2.1 (by rw [h0]; rfl))
  obtain ⟨st2, e2⟩ := rule2_total roster st1 t1 ht1
  have p2 := rule2_pres roster _ _ e2
  obtain ⟨t2, ht2⟩ := Option.isSome_iff_exists.mp (p2.2.2.1 (by rw [ht1]; rfl))
  obtain ⟨st3, e3⟩ := rule3_total st2 t2 ht2
  refine ⟨((rule5 history pA pL (rule4 history st3)).res,
    takeLastN 10 (history ++
      [{ action := (rule5 history pA pL (rule4 history st3)).act,
         target := (rule5 history pA pL (rule4 history st3)).tgt }])), ?_⟩
  simp only [sanitizeResponse, e1, e2, e3]

/-- Claim C2, corrected/amended: for every raw decision dictionary whose
`thought` entry is present, `_sanitize_response` returns without raising, and
the returned decision's action entry — lower-cased, with an absent key
defaulting to `rest` — is one of `move`, `talk`, `work`, `rest`. (The claim as
frozen is false on the code: a missing `thought` key makes rules 1–3 raise
`KeyError`, and the talk-target roster clause fails because rules 3 and 5 can
set `talk` without revalidating the target against the roster.) -/
theorem claim2_thm (raw : RawDecision) (history : List HistEntry) (roster : List String)
    (pA pL : Nat) (t : String) (h : raw.thought = some t) :
    ∃ r, sanitizeResponse raw history roster pA pL = Except.ok r
      ∧ pyLower (r.1.action.getD "rest") ∈ valid_actions := by
  obtain ⟨r, hr⟩ := sanitize_total raw history roster pA pL t h
  obtain ⟨st5, hre, hp, hv⟩ := sanitize_ok_spec raw history roster pA pL r hr
  refine ⟨r, hr, ?_⟩
  have h1 : r.1 = st5.res := by rw [hre]
  have hsync : st5.act = pyLower (st5.res.action.getD "rest") := hp.2.2.2.2 rfl
  rw [h1, ← hsync]
  exact hv

/-- Claim C2 witness: the theorem applied to `{"thought": "t", "action": "fly",
"target": "roof"}`. -/
theorem claim2_witness :
    sampleFly.thought = some "t"
    ∧ ∃ r, sanitizeResponse sampleFly [] [] 0 0 = Except.ok r
        ∧ pyLower (r.1.action.getD "rest") ∈ valid_actions :=
  ⟨rfl, claim2_thm sampleFly [] [] 0 0 "t" rfl⟩

/-- Claim C2 counterexample: on the raw decision `{"action": "fly"}` — the
`thought` key missing — `_sanitize_response` raises `KeyError` instead of
returning a repaired decision, refuting the frozen claim's totality. -/
theorem claim2_counterexample :
    sanitizeResponse sampleNoThought [] [] 0 0 = Except.error "KeyError: thought" := rfl

/-- Claim C3, corrected/amended: a raw decision whose action is not one of
`move, talk, work, rest` is remapped to `rest` — not `work` — except for the
confuser `check`, which is remapped to `work`; in both cases a correction
note is appended to the thought. Stated here for a present thought, an empty
history and a target containing no person marker, so that later rules do not
fire. -/
theorem claim3_thm (raw : RawDecision) (roster : List String) (pA pL : Nat) (t : String)
    (h : raw.thought = some t)
    (hv : valid_actions.contains (pyLower (raw.action.getD "rest")) = false)
    (hp : (person_markers.any fun x => strIn x (pyLower (raw.target.getD ""))) = false) :
    ∃ r, sanitizeResponse raw [] roster pA pL = Except.ok r
      ∧ r.1.action = some (if pyLower (raw.action.getD "rest") == "check" then "work" else "rest")
      ∧ r.1.thought = some (t ++ (if pyLower (raw.action.getD "rest") == "check"
          then " (Corrected from check)" else " (Invalid action \x27rest\x27 corrected)")) := by
  have hv2 : ¬ (pyLower (raw.action.getD "rest") ∈ valid_actions) := by simpa using hv
  have hp2 : ¬ ∃ x ∈ person_markers, strIn x (pyLower (raw.target.getD "")) = true := by
    simpa using hp
  by_cases hc : (pyLower (raw.action.getD "rest") == "check") = true
  · have he : sanitizeResponse raw [] roster pA pL = Except.ok
        ({ raw with action := some "work", thought := some (t ++ " (Corrected from check)") },
          [{ action := "work", target := raw.target.getD "" }]) := by
      simp [sanitizeResponse, initState, rule1, rule2, rule3, rule4, rule4Matching, rule5,
        appendThought, takeLastN, h, hv2, hc, hp2]
    exact ⟨_, he, by simp [hc], by simp [hc]⟩
  · have hc2 : (pyLower (raw.action.getD "rest") == "check") = false := by simpa using hc
    have he : sanitizeResponse raw [] roster pA pL = Except.ok
        ({ raw with
            action := some "rest",
            thought := some (t ++ " (Invalid action \x27rest\x27 corrected)") },
          [{ action := "rest", target := raw.target.getD "" }]) := by
      simp [sanitizeResponse, initState, rule1, rule2, rule3, rule4, rule4Matching, rule5,
        appendThought, takeLastN, h, hv2, hc2, hp2]
    exact ⟨_, he, by simp [hc2], by simp [hc2]⟩

/-- Claim C3 witness: the theorem applied to `{"thought": "t", "action":
"fly", "target": "roof"}`: the sanitized action is `rest`. -/
theorem claim3_witness :
    valid_actions.contains (pyLower (sampleFly.action.getD "rest")) = false
    ∧ ∃ r, sanitizeResponse sampleFly [] [] 0 0 = Except.ok r
        ∧ r.1.action = some (if pyLower (sampleFly.action.getD "rest") == "check" then "work" else "rest")
        ∧ r.1.thought = some ("t" ++ (if pyLower (sampleFly.action.getD "rest") == "check"
            then " (Corrected from check)" else " (Invalid action \x27rest\x27 corrected)")) :=
  ⟨by decide, claim3_thm sampleFly [] 0 0 "t" rfl (by decide) (by decide)⟩

/-- Claim C3 counterexample: `{"action": "fly"}` (with a thought present) is
remapped to `rest`, not to `work` as the frozen claim states. -/
theorem claim3_counterexample :
    sanitizeResponse sampleFly [] [] 0 0
      = Except.ok ({ thought := some ("t (Invalid action \x27rest\x27 corrected)"),
                     action := some "rest", target := some "roof", dialogue := none },
        [{ action := "rest", target := "roof" }])
    ∧ ¬ ((some "rest" : Option String) = some "work") :=
  ⟨rfl, by decide⟩

/-- Claim C5, corrected/amended: sanitization never writes the `dialogue`
field — the returned decision's dialogue always equals the raw decision's
dialogue. In particular, when a raw `talk` decision is demoted to `work`,
the non-null dialogue is retained, refuting the frozen claim's invariant
that `dialogue` is non-null only when the final action is `talk`. -/
theorem claim5_thm (raw : RawDecision) (history : List HistEntry) (roster : List String)
    (pA pL : Nat) (r : RawDecision × List HistEntry)
    (h : sanitizeResponse raw history roster pA pL = Except.ok r) :
    r.1.dialogue = raw.dialogue := by
  obtain ⟨st5, hre, hp, hv⟩ := sanitize_ok_spec raw history roster pA pL r h
  have h1 : r.1 = st5.res := by rw [hre]
  rw [h1]
  exact hp.1

/-- Claim C5 witness: the theorem applied to a demoted ghost-talk decision. -/
theorem claim5_witness :
    sanitizeResponse sampleGhostTalk [] ["Alice"] 0 0 = Except.ok sampleGhostTalkOut
    ∧ sampleGhostTalkOut.1.dialogue = sampleGhostTalk.dialogue :=
  ⟨rfl, claim5_thm sampleGhostTalk [] ["Alice"] 0 0 sampleGhostTalkOut rfl⟩

/-- Claim C5 counterexample: `{"thought": "t", "action": "talk", "target":
"Nobody", "dialogue": "hi"}` against roster `["Alice"]` is demoted to `work`,
yet the returned decision still carries `dialogue = "hi"` — the frozen
invariant (dialogue non-null only if action is talk) fails. -/
theorem claim5_counterexample :
    sanitizeResponse sampleGhostTalk [] ["Alice"] 0 0 = Except.ok sampleGhostTalkOut
    ∧ sampleGhostTalkOut.1.action = some "work"
    ∧ sampleGhostTalkOut.1.dialogue = some "hi" :=
  ⟨rfl, rfl, rfl⟩

/-- Claim C6, corrected/amended: rule 3 does not consult the roster — it
checks the target against the hard-coded person markers `vikram, ananya,
tara, priya, dr., cdr.` (case-insensitive substring). For every raw `work`
decision whose target contains one of those markers (with a present thought
and empty history, so no other rule interferes), the sanitizer reclassifies
the action to `talk` and keeps the target. A `work` decision whose target
fuzzy-matches a roster person that contains none of the markers is NOT
reclassified — see the counterexample. The frozen Scenario C instance
(Dr. Ananya Iyer) does hold, via the `dr.`/`ananya` markers. -/
theorem claim6_thm (raw : RawDecision) (roster : List String) (pA pL : Nat) (t a : String)
    (h : raw.thought = some t) (ha : raw.action = some a) (hw : pyLower a = "work")
    (hp : (person_markers.any fun x => strIn x (pyLower (raw.target.getD ""))) = true) :
    ∃ r, sanitizeResponse raw [] roster pA pL = Except.ok r
      ∧ r.1.action = some "talk" ∧ r.1.target = raw.target := by
  have hp2 : ∃ x ∈ person_markers, strIn x (pyLower (raw.target.getD "")) = true := by
    simpa using hp
  have he : sanitizeResponse raw [] roster pA pL = Except.ok
      ({ raw with
          action := some "talk",
          thought := some (t ++ " (Changed work-on-person to talk)") },
        [{ action := "talk", target := raw.target.getD "" }]) := by
    simp [sanitizeResponse, initState, rule1, rule2, rule3, rule4, rule4Matching, rule5,
      valid_actions, appendThought, takeLastN, h, ha, hw, hp2]
  exact ⟨_, he, rfl, rfl⟩

/-- Claim C6 witness (Scenario C): raw `{"action": "work", "target": "Dr.
Ananya Iyer"}` with that name in the roster is reclassified to `talk` with
the target kept. -/
theorem claim6_witness :
    (person_markers.any fun x => strIn x (pyLower (sampleAnanya.target.getD ""))) = true
    ∧ ∃ r, sanitizeResponse sampleAnanya [] ["Dr. Ananya Iyer"] 0 0 = Except.ok r
        ∧ r.1.action = some "talk" ∧ r.1.target = sampleAnanya.target :=
  ⟨by decide, claim6_thm sampleAnanya ["Dr. Ananya Iyer"] 0 0 "t" "work" rfl rfl (by decide)
    (by decide)⟩

/-- Claim C6 counterexample: `{"action": "work", "target": "Bob"}` with
roster `["Bob"]` — the target fuzzy-matches the roster person `Bob`, yet the
sanitizer leaves the action as `work`, refuting the frozen claim's
roster-based reading of rule 3. -/
theorem claim6_counterexample :
    fuzzyNameMatch "Bob" "Bob" = true
    ∧ sanitizeResponse sampleWorkBob [] ["Bob"] 0 0
        = Except.ok (sampleWorkBob, [{ action := "work", target := "Bob" }])
    ∧ ¬ (sampleWorkBob.action = some "talk") :=
  ⟨by decide, rfl, by decide⟩

/-- Claim C10 (confirmed): the history entry appended by `_sanitize_response`
pairs the final (post-correction) action — the local `action` variable, which
always equals the lower-cased, `rest`-defaulted returned action — with the
original pre-correction target (`result.get("target", "") or ""` of the raw
decision), because the local `target` variable is never reassigned even when
rules 2, 4 or 5 overwrite `result["target"]`. The updated history is the old
history plus that entry, truncated to the last 10. -/
theorem claim10_thm (raw : RawDecision) (history : List HistEntry) (roster : List String)
    (pA pL : Nat) (r : RawDecision × List HistEntry)
    (h : sanitizeResponse raw history roster pA pL = Except.ok r) :
    r.2 = takeLastN 10 (history ++
      [{ action := pyLower (r.1.action.getD "rest"), target := raw.target.getD "" }]) := by
  obtain ⟨st5, hre, hp, hv⟩ := sanitize_ok_spec raw history roster pA pL r h
  have h1 : r.1 = st5.res := by rw [hre]
  have h2 : r.2 = takeLastN 10 (history ++ [{ action := st5.act, target := st5.tgt }]) := by
    rw [hre]
  have hsync : st5.act = pyLower (st5.res.action.getD "rest") := hp.2.2.2.2 rfl
  have htgt : st5.tgt = raw.target.getD "" := hp.2.1
  rw [h2, h1, hsync, htgt]

/-- Claim C10 witness: the ghost-talk decision is demoted (its returned
target becomes `station duties`), yet the appended history entry carries the
raw target `Ghost` together with the final action `work`. -/
theorem claim10_witness :
    sanitizeResponse sampleGhost [] ["Alice"] 0 0 = Except.ok sampleGhostOut
    ∧ sampleGhostOut.1.target = some "station duties"
    ∧ sampleGhostOut.2 = takeLastN 10 ([] ++
        [{ action := pyLower (sampleGhostOut.1.action.getD "rest"),
           target := sampleGhost.target.getD "" }]) :=
  ⟨rfl, rfl, claim10_thm sampleGhost [] ["Alice"] 0 0 sampleGhostOut rfl⟩

theorem fallback_action_mem (a : String) (h : a ∈ fallback_actions) : a ∈ valid_actions := by
  simp only [fallback_actions, List.mem_cons, List.not_mem_nil, or_false] at h
  rcases h with rfl | rfl | rfl <;> decide

theorem reasonLoop_allFail (outs : Nat → AttemptOutcome) (roster : List String)
    (pA pL pFa pFt : Nat) :
    ∀ fuel i hist,
      (∀ k, k < fuel → outs (i + k) = AttemptOutcome.raised ∨ outs (i + k) = AttemptOutcome.parseFail) →
      reasonLoop outs roster pA pL pFa pFt fuel i hist
        = { dec := fallbackDecision pFa pFt, hist := hist, attemptsUsed := fuel,
            usedFallback := true } := by
  intro fuel
  induction fuel with
  | zero => intro i hist _; rfl
  | succ n ih =>
    intro i hist h
    have h0 := h 0 (Nat.succ_pos n)
    rw [Nat.add_zero] at h0
    have hrest : ∀ k, k < n →
        outs (i + 1 + k) = AttemptOutcome.raised ∨ outs (i + 1 + k) = AttemptOutcome.parseFail := by
      intro k hk
      have := h (k + 1) (Nat.succ_lt_succ hk)
      rwa [show i + (k + 1) = i + 1 + k by omega] at this
    rcases h0 with h0 | h0 <;>
      simp only [reasonLoop, h0] <;> rw [ih (i + 1) hist hrest]

/-- Claim C4, corrected/amended: a transport attempt whose text cannot be
parsed into a decision (the call returns a falsy result) does NOT trigger an
immediate fallback — `reason`'s loop treats it like any failed attempt and
proceeds to the next transport attempt out of the remaining budget, one
attempt having been consumed; the heuristic fallback is returned only after
all 3 attempts fail. (The frozen claim — immediate fallback, no retry — is
refuted by the counterexample, where a second transport attempt succeeds.) -/
theorem claim4_thm (outs : Nat → AttemptOutcome) (roster : List String)
    (pA pL pFa pFt : Nat) (fuel i : Nat) (hist : List HistEntry)
    (h : outs i = AttemptOutcome.parseFail) :
    reasonLoop outs roster pA pL pFa pFt (fuel + 1) i hist
      = { reasonLoop outs roster pA pL pFa pFt fuel (i + 1) hist with
          attemptsUsed := (reasonLoop outs roster pA pL pFa pFt fuel (i + 1) hist).attemptsUsed + 1 } := by
  simp only [reasonLoop, h]

/-- Claim C4 witness: the theorem applied at attempt 0 of a run whose every
response is unparsable. -/
theorem claim4_witness :
    reasonLoop (fun _ => AttemptOutcome.parseFail) [] 0 0 0 0 3 0 []
      = { reasonLoop (fun _ => AttemptOutcome.parseFail) [] 0 0 0 0 2 1 [] with
          attemptsUsed :=
            (reasonLoop (fun _ => AttemptOutcome.parseFail) [] 0 0 0 0 2 1 []).attemptsUsed + 1 } :=
  claim4_thm (fun _ => AttemptOutcome.parseFail) [] 0 0 0 0 2 0 [] rfl

/-- Claim C4 counterexample: when attempt 0 yields unparsable text and
attempt 1 yields a well-formed decision, `reason` makes a second transport
attempt (attemptsUsed = 2) and returns the parsed decision, not the heuristic
fallback — refuting "falls back immediately without retrying". -/
theorem claim4_counterexample :
    (runReason outsMalformedThenGood [] 0 0 0 0 []).attemptsUsed = 2
    ∧ (runReason outsMalformedThenGood [] 0 0 0 0 []).usedFallback = false :=
  ⟨rfl, rfl⟩

/-- Claim C7 (confirmed): `reason` is modelled by the total function
`runReason` (every Python exception path is caught by the loop's
`try/except`), and when every one of the 3 transport attempts errors or
yields unparsable text, it returns within the 3-attempt retry budget the
heuristic fallback decision, whose action is one of the enumerated valid
actions and whose target is non-null. -/
theorem claim7_thm (outs : Nat → AttemptOutcome) (roster : List String) (pA pL pFa pFt : Nat)
    (hist : List HistEntry)
    (h : ∀ i, i < 3 → outs i = AttemptOutcome.raised ∨ outs i = AttemptOutcome.parseFail) :
    runReason outs roster pA pL pFa pFt hist
      = { dec := fallbackDecision pFa pFt, hist := hist, attemptsUsed := 3, usedFallback := true }
    ∧ (runReason outs roster pA pL pFa pFt hist).attemptsUsed ≤ 3
    ∧ (∃ a, (fallbackDecision pFa pFt).action = some a ∧ a ∈ valid_actions)
    ∧ (fallbackDecision pFa pFt).target.isSome = true := by
  have he : runReason outs roster pA pL pFa pFt hist
      = { dec := fallbackDecision pFa pFt, hist := hist, attemptsUsed := 3,
          usedFallback := true } := by
    refine reasonLoop_allFail outs roster pA pL pFa pFt 3 0 hist ?_
    intro k hk
    have h2 := h k hk
    rwa [show 0 + k = k from Nat.zero_add k]
  refine ⟨he, by rw [he], ⟨pyChoice fallback_actions pFa, rfl, ?_⟩, rfl⟩
  exact fallback_action_mem _ (pyChoice_mem _ _ (by decide))

/-- Claim C7 witness: the theorem applied to a transport that always raises. -/
theorem claim7_witness :
    runReason (fun _ => AttemptOutcome.raised) [] 0 0 0 0 []
      = { dec := fallbackDecision 0 0, hist := [], attemptsUsed := 3, usedFallback := true }
    ∧ (runReason (fun _ => AttemptOutcome.raised) [] 0 0 0 0 []).attemptsUsed ≤ 3
    ∧ (∃ a, (fallbackDecision 0 0).action = some a ∧ a ∈ valid_actions)
    ∧ (fallbackDecision 0 0).target.isSome = true :=
  claim7_thm (fun _ => AttemptOutcome.raised) [] 0 0 0 0 [] (fun _ _ => Or.inl rfl)

/-- Claim C8 (confirmed): for a worker whose cache entry was created at step
`s`, the lookup in `_simulation_loop` hits exactly when
`step_count - created < cache_duration`; in particular the cached decision is
returned unchanged, with no orchestrator call, at every step `s + k` with
`0 < k < cacheDuration`, and a fresh orchestrator call is made (and cached)
at step `s + cacheDuration`. -/
theorem claim8_thm (cache : List (String × RawDecision × Nat)) (name : String)
    (d : RawDecision) (s duration : Nat) (fresh : RawDecision)
    (hget : cacheGet cache name = some (d, s)) :
    (∀ step, step - s < duration →
      processDecision cache name step duration fresh
        = { result := d, cache := cache, calledLLM := false })
    ∧ (∀ step, ¬ (step - s < duration) →
      processDecision cache name step duration fresh
        = { result := fresh, cache := cachePut cache name fresh step, calledLLM := true })
    ∧ (∀ k, 0 < k → k < duration →
      processDecision cache name (s + k) duration fresh
        = { result := d, cache := cache, calledLLM := false })
    ∧ processDecision cache name (s + duration) duration fresh
        = { result := fresh, cache := cachePut cache name fresh (s + duration),
            calledLLM := true } := by
  have hit : ∀ step, step - s < duration →
      processDecision cache name step duration fresh
        = { result := d, cache := cache, calledLLM := false } := by
    intro step hs
    simp only [processDecision, hget]
    rw [if_pos hs]
  have miss : ∀ step, ¬ (step - s < duration) →
      processDecision cache name step duration fresh
        = { result := fresh, cache := cachePut cache name fresh step, calledLLM := true } := by
    intro step hs
    simp only [processDecision, hget]
    rw [if_neg hs]
  refine ⟨hit, miss, ?_, ?_⟩
  · intro k hk1 hk2
    exact hit (s + k) (by omega)
  · exact miss (s + duration) (by omega)

/-- Claim C8 witness: a decision cached for worker `A` at step 5 with the
engine's `cache_duration = 3` is returned unchanged at step 7 and replaced by
a fresh orchestrator call at step 8 = 5 + cache_duration. -/
theorem claim8_witness :
    processDecision [("A", sampleGood, 5)] "A" 7 cache_duration sampleFly
      = { result := sampleGood, cache := [("A", sampleGood, 5)], calledLLM := false }
    ∧ processDecision [("A", sampleGood, 5)] "A" (5 + cache_duration) cache_duration sampleFly
      = { result := sampleFly,
          cache := cachePut [("A", sampleGood, 5)] "A" sampleFly (5 + cache_duration),
          calledLLM := true } :=
  ⟨(claim8_thm [("A", sampleGood, 5)] "A" sampleGood 5 cache_duration sampleFly rfl).2.2.1
      2 (by decide) (by decide),
   (claim8_thm [("A", sampleGood, 5)] "A" sampleGood 5 cache_duration sampleFly rfl).2.2.2⟩

theorem pruneReqs_idem (nw t : Nat) (l : List Nat) (hle : nw ≤ t)
    (hb : ∀ τ ∈ l, τ ≤ nw) : pruneReqs t (pruneReqs nw l) = pruneReqs t l := by
  unfold pruneReqs
  rw [List.filter_filter]
  refine List.filter_congr ?_
  intro a ha
  have ha2 : a ≤ nw := hb a ha
  by_cases h2 : t - a < 60
  · have h1 : nw - a < 60 := by omega
    simp [h1, h2]
  · simp [h2]

theorem pruneToks_idem (nw t : Nat) (l : List (Nat × Nat)) (hle : nw ≤ t)
    (hb : ∀ e ∈ l, e.2 ≤ nw) : pruneToks t (pruneToks nw l) = pruneToks t l := by
  unfold pruneToks
  rw [List.filter_filter]
  refine List.filter_congr ?_
  intro a ha
  have ha2 : a.2 ≤ nw := hb a ha
  by_cases h2 : t - a.2 < 60
  · have h1 : nw - a.2 < 60 := by omega
    simp [h1, h2]
  · simp [h2]

theorem tokSum_append (l1 l2 : List (Nat × Nat)) :
    tokSum (l1 ++ l2) = tokSum l1 + tokSum l2 := by
  simp [tokSum]

theorem admitCount_append (l1 l2 : List RLEvent) (t : Nat) :
    admitCount (l1 ++ l2) t = admitCount l1 t + admitCount l2 t :=
  List.countP_append _ l1 l2

theorem admitCost_append (l1 l2 : List RLEvent) (t : Nat) :
    admitCost (l1 ++ l2) t = admitCost l1 t + admitCost l2 t := by
  simp [admitCost]

theorem correctCost_append (l1 l2 : List RLEvent) (t : Nat) :
    correctCost (l1 ++ l2) t = correctCost l1 t + correctCost l2 t := by
  simp [correctCost]

theorem admitCount_adm_single (now est t : Nat) :
    admitCount [RLEvent.adm now est] t = if inWindow t now then 1 else 0 := by
  by_cases h : inWindow t now = true <;> simp [admitCount, h]

theorem admitCost_adm_single (now est t : Nat) :
    admitCost [RLEvent.adm now est] t = if inWindow t now then est else 0 := by
  simp [admitCost]

theorem correctCost_adm_single (now est t : Nat) :
    correctCost [RLEvent.adm now est] t = 0 := by
  simp [correctCost]

theorem admitCount_correct_single (now est actual t : Nat) :
    admitCount [RLEvent.correct now est actual] t = 0 := by
  simp [admitCount]

theorem admitCost_correct_single (now est actual t : Nat) :
    admitCost [RLEvent.correct now est actual] t = 0 := by
  simp [admitCost]

theorem correctCost_correct_single (now est actual t : Nat) :
    correctCost [RLEvent.correct now est actual] t
      = if est < actual && inWindow t now then actual - est else 0 := by
  simp [correctCost]

theorem admitCount_mono (past : List RLEvent) (nw t : Nat) (hle : nw ≤ t)
    (hb : ∀ e ∈ past, e.time ≤ nw) : admitCount past t ≤ admitCount past nw := by
  refine List.countP_mono_left ?_
  intro e he hp
  cases e with
  | adm now2 est2 =>
    have hb2 : now2 ≤ nw := hb _ he
    simp only [inWindow, Bool.and_eq_true, decide_eq_true_eq] at hp ⊢
    omega
  | correct now2 est2 actual2 => simp at hp

theorem admitCost_mono (past : List RLEvent) (nw t : Nat) (hle : nw ≤ t)
    (hb : ∀ e ∈ past, e.time ≤ nw) : admitCost past t ≤ admitCost past nw := by
  refine List.sum_le_sum ?_
  intro e he
  cases e with
  | adm now2 est2 =>
    have hb2 : now2 ≤ nw := hb _ he
    by_cases hp : inWindow t now2 = true
    · have hq : inWindow nw now2 = true := by
        simp only [inWindow, Bool.and_eq_true, decide_eq_true_eq] at hp ⊢
        omega
      simp [hp, hq]
    · simp [hp]
  | correct now2 est2 actual2 => simp

theorem pruneReqs_append (t : Nat) (l1 l2 : List Nat) :
    pruneReqs t (l1 ++ l2) = pruneReqs t l1 ++ pruneReqs t l2 := by
  simp [pruneReqs]

theorem pruneToks_append (t : Nat) (l1 l2 : List (Nat × Nat)) :
    pruneToks t (l1 ++ l2) = pruneToks t l1 ++ pruneToks t l2 := by
  simp [pruneToks]

/-- The inductive invariant of a `RateLimiter` run: starting from a state `s`
whose pruned ledgers agree with the event prefix `past` (all times at most
`tcur`), and with both window bounds already holding for `past`, a successful
run of the remaining monotone events keeps both window bounds — the request
count bound unconditionally, the reserved-cost bound provided every admitted
estimate is at most `tpm` (overshoot corrections appear on the right-hand
side). -/
theorem runTrace_bound (rpm tpm : Nat) :
    ∀ (es : List RLEvent) (s : RLState) (tcur : Nat) (past : List RLEvent) (s2 : RLState),
      timesMono tcur es →
      (∀ e ∈ past, e.time ≤ tcur) →
      (∀ τ ∈ s.reqTimes, τ ≤ tcur) →
      (∀ t, tcur ≤ t → (pruneReqs t s.reqTimes).length = admitCount past t) →
      (∀ e ∈ s.tokEntries, e.2 ≤ tcur) →
      (∀ t, tcur ≤ t → tokSum (pruneToks t s.tokEntries) = admitCost past t + correctCost past t) →
      (∀ t, admitCount past t ≤ rpm) →
      (∀ t, admitCost past t ≤ tpm + correctCost past t) →
      (∀ now est, RLEvent.adm now est ∈ es → est ≤ tpm) →
      runTrace rpm tpm s es = some s2 →
      (∀ t, admitCount (past ++ es) t ≤ rpm) ∧
      (∀ t, admitCost (past ++ es) t ≤ tpm + correctCost (past ++ es) t) := by
  intro es
  induction es with
  | nil =>
    intro s tcur past s2 _ _ _ _ _ _ hb1 hb2 _ _
    exact ⟨by simpa using hb1, by simpa using hb2⟩
  | cons e es ih =>
    intro s tcur past s2 hmono hpast hreq hreqc htok htokc hb1 hb2 hest hrun
    obtain ⟨hte, hmono2⟩ := hmono
    unfold runTrace at hrun
    cases hstep : rlStep rpm tpm s e with
    | none => rw [hstep] at hrun; cases hrun
    | some s1 =>
      rw [hstep] at hrun
      cases e with
      | adm now est =>
        have hte2 : tcur ≤ now := hte
        simp only [rlStep] at hstep
        by_cases hcan : admissionOk rpm tpm s now est = true
        · rw [if_pos hcan] at hstep
          injection hstep with hs1
          unfold admissionOk at hcan
          simp only [Bool.and_eq_true, Bool.or_eq_true, decide_eq_true_eq,
            List.isEmpty_iff] at hcan
          obtain ⟨hrpmlt, htpmok⟩ := hcan
          have hreqb : ∀ τ ∈ s.reqTimes, τ ≤ now := fun τ h => le_trans (hreq τ h) hte2
          have htokb : ∀ e2 ∈ s.tokEntries, e2.2 ≤ now := fun e2 h => le_trans (htok e2 h) hte2
          have hpast2 : ∀ e2 ∈ past ++ [RLEvent.adm now est], e2.time ≤ now := by
            intro e2 he2
            rcases List.mem_append.mp he2 with h | h
            · exact le_trans (hpast e2 h) hte2
            · simp only [List.mem_singleton] at h
              subst h
              exact le_rfl
          have hreq1 : ∀ τ ∈ s1.reqTimes, τ ≤ now := by
            rw [← hs1]
            intro τ hτ
            rcases List.mem_append.mp hτ with h | h
            · exact hreqb τ (List.mem_of_mem_filter h)
            · simp only [List.mem_singleton] at h
              omega
          have htok1 : ∀ e2 ∈ s1.tokEntries, e2.2 ≤ now := by
            rw [← hs1]
            intro e2 he2
            rcases List.mem_append.mp he2 with h | h
            · exact htokb e2 (List.mem_of_mem_filter h)
            · simp only [List.mem_singleton] at h
              subst h
              exact le_rfl
          have hreqc1 : ∀ t, now ≤ t → (pruneReqs t s1.reqTimes).length
              = admitCount (past ++ [RLEvent.adm now est]) t := by
            intro t ht
            rw [← hs1]
            show (pruneReqs t (pruneReqs now s.reqTimes ++ [now])).length = _
            rw [pruneReqs_append, List.length_append,
              pruneReqs_idem now t s.reqTimes ht hreqb, hreqc t (le_trans hte2 ht),
              admitCount_append, admitCount_adm_single]
            congr 1
            by_cases hw : t - now < 60 <;> simp [pruneReqs, inWindow, hw, ht]
          have htokc1 : ∀ t, now ≤ t → tokSum (pruneToks t s1.tokEntries)
              = admitCost (past ++ [RLEvent.adm now est]) t
                + correctCost (past ++ [RLEvent.adm now est]) t := by
            intro t ht
            rw [← hs1]
            show tokSum (pruneToks t (pruneToks now s.tokEntries ++ [(est, now)])) = _
            rw [pruneToks_append, tokSum_append,
              pruneToks_idem now t s.tokEntries ht htokb, htokc t (le_trans hte2 ht),
              admitCost_append, correctCost_append, admitCost_adm_single,
              correctCost_adm_single]
            by_cases hw : t - now < 60 <;>
              simp [pruneToks, tokSum, inWindow, hw, ht] <;> omega
          have hb1x : ∀ t, admitCount (past ++ [RLEvent.adm now est]) t ≤ rpm := by
            intro t
            rw [admitCount_append, admitCount_adm_single]
            by_cases hw : inWindow t now = true
            · rw [if_pos hw]
              have hle2 : now ≤ t := by
                simp only [inWindow, Bool.and_eq_true, decide_eq_true_eq] at hw
                exact hw.1
              have hm := admitCount_mono past now t hle2
                (fun e2 he2 => le_trans (hpast e2 he2) hte2)
              have heq := hreqc now hte2
              omega
            · rw [if_neg hw]
              have := hb1 t
              omega
          have hb2x : ∀ t, admitCost (past ++ [RLEvent.adm now est]) t
              ≤ tpm + correctCost (past ++ [RLEvent.adm now est]) t := by
            intro t
            rw [admitCost_append, correctCost_append, admitCost_adm_single,
              correctCost_adm_single]
            by_cases hw : inWindow t now = true
            · rw [if_pos hw]
              have hle2 : now ≤ t := by
                simp only [inWindow, Bool.and_eq_true, decide_eq_true_eq] at hw
                exact hw.1
              have hm := admitCost_mono past now t hle2
                (fun e2 he2 => le_trans (hpast e2 he2) hte2)
              have heq := htokc now hte2
              rcases htpmok with hok | hempty
              · omega
              · have h0 : tokSum (pruneToks now s.tokEntries) = 0 := by rw [hempty]; rfl
                have heste : est ≤ tpm := hest now est (List.mem_cons_self _ _)
                omega
            · rw [if_neg hw]
              have := hb2 t
              omega
          have hest2 : ∀ now2 est2, RLEvent.adm now2 est2 ∈ es → est2 ≤ tpm :=
            fun n2 e2 h => hest n2 e2 (List.mem_cons_of_mem _ h)
          have hres := ih s1 now (past ++ [RLEvent.adm now est]) s2 hmono2 hpast2
            hreq1 hreqc1 htok1 htokc1 hb1x hb2x hest2 hrun
          refine ⟨fun t => ?_, fun t => ?_⟩
          · have h2 := hres.1 t
            rwa [List.append_assoc, List.singleton_append] at h2
          · have h2 := hres.2 t
            rwa [List.append_assoc, List.singleton_append] at h2
        · rw [if_neg hcan] at hstep
          cases hstep
      | correct now est actual =>
        have hte2 : tcur ≤ now := hte
        simp only [rlStep] at hstep
        have hpast2 : ∀ e2 ∈ past ++ [RLEvent.correct now est actual], e2.time ≤ now := by
          intro e2 he2
          rcases List.mem_append.mp he2 with h | h
          · exact le_trans (hpast e2 h) hte2
          · simp only [List.mem_singleton] at h
            subst h
            exact le_rfl
        have hest2 : ∀ now2 est2, RLEvent.adm now2 est2 ∈ es → est2 ≤ tpm :=
          fun n2 e2 h => hest n2 e2 (List.mem_cons_of_mem _ h)
        have hb1x : ∀ t, admitCount (past ++ [RLEvent.correct now est actual]) t ≤ rpm := by
          intro t
          rw [admitCount_append, admitCount_correct_single]
          have := hb1 t
          omega
        have hb2x : ∀ t, admitCost (past ++ [RLEvent.correct now est actual]) t
            ≤ tpm + correctCost (past ++ [RLEvent.correct now est actual]) t := by
          intro t
          rw [admitCost_append, correctCost_append, admitCost_correct_single,
            correctCost_correct_single]
          have := hb2 t
          by_cases hw : (est < actual && inWindow t now) = true <;> simp [hw] <;> omega
        by_cases hlt : est < actual
        · rw [if_pos hlt] at hstep
          injection hstep with hs1
          have hreq1 : ∀ τ ∈ s1.reqTimes, τ ≤ now := by
            rw [← hs1]
            exact fun τ h => le_trans (hreq τ h) hte2
          have hreqc1 : ∀ t, now ≤ t → (pruneReqs t s1.reqTimes).length
              = admitCount (past ++ [RLEvent.correct now est actual]) t := by
            intro t ht
            rw [← hs1]
            show (pruneReqs t s.reqTimes).length = _
            rw [admitCount_append, admitCount_correct_single]
            have := hreqc t (le_trans hte2 ht)
            omega
          have htok1 : ∀ e2 ∈ s1.tokEntries, e2.2 ≤ now := by
            rw [← hs1]
            intro e2 he2
            rcases List.mem_append.mp he2 with h | h
            · exact le_trans (htok e2 h) hte2
            · simp only [List.mem_singleton] at h
              subst h
              exact le_rfl
          have htokc1 : ∀ t, now ≤ t → tokSum (pruneToks t s1.tokEntries)
              = admitCost (past ++ [RLEvent.correct now est actual]) t
                + correctCost (past ++ [RLEvent.correct now est actual]) t := by
            intro t ht
            rw [← hs1]
            show tokSum (pruneToks t (s.tokEntries ++ [(actual - est, now)])) = _
            rw [pruneToks_append, tokSum_append, htokc t (le_trans hte2 ht),
              admitCost_append, correctCost_append, admitCost_correct_single,
              correctCost_correct_single]
            by_cases hw : t - now < 60 <;>
              simp [pruneToks, tokSum, inWindow, hw, ht, hlt] <;> omega
          have hres := ih s1 now (past ++ [RLEvent.correct now est actual]) s2 hmono2 hpast2
            hreq1 hreqc1 htok1 htokc1 hb1x hb2x hest2 hrun
          refine ⟨fun t => ?_, fun t => ?_⟩
          · have h2 := hres.1 t
            rwa [List.append_assoc, List.singleton_append] at h2
          · have h2 := hres.2 t
            rwa [List.append_assoc, List.singleton_append] at h2
        · rw [if_neg hlt] at hstep
          injection hstep with hs1
          have hreq1 : ∀ τ ∈ s1.reqTimes, τ ≤ now := by
            rw [← hs1]
            exact fun τ h => le_trans (hreq τ h) hte2
          have hreqc1 : ∀ t, now ≤ t → (pruneReqs t s1.reqTimes).length
              = admitCount (past ++ [RLEvent.correct now est actual]) t := by
            intro t ht
            rw [← hs1]
            show (pruneReqs t s.reqTimes).length = _
            rw [admitCount_append, admitCount_correct_single]
            have := hreqc t (le_trans hte2 ht)
            omega
          have htok1 : ∀ e2 ∈ s1.tokEntries, e2.2 ≤ now := by
            rw [← hs1]
            exact fun e2 h => le_trans (htok e2 h) hte2
          have htokc1 : ∀ t, now ≤ t → tokSum (pruneToks t s1.tokEntries)
              = admitCost (past ++ [RLEvent.correct now est actual]) t
                + correctCost (past ++ [RLEvent.correct now est actual]) t := by
            intro t ht
            rw [← hs1, admitCost_append, correctCost_append, admitCost_correct_single,
              correctCost_correct_single]
            have := htokc t (le_trans hte2 ht)
            simp [hlt]
            omega
          have hres := ih s1 now (past ++ [RLEvent.correct now est actual]) s2 hmono2 hpast2
            hreq1 hreqc1 htok1 htokc1 hb1x hb2x hest2 hrun
          refine ⟨fun t => ?_, fun t => ?_⟩
          · have h2 := hres.1 t
            rwa [List.append_assoc, List.singleton_append] at h2
          · have h2 := hres.2 t
            rwa [List.append_assoc, List.singleton_append] at h2

/-- Request-side-only variant of the run invariant: the request-count window
bound needs no assumption on the estimated costs, because the RPM check of
`wait_for_capacity` is performed before, and independently of, the token
ledger check. -/
theorem runTrace_rpm_bound (rpm tpm : Nat) :
    ∀ (es : List RLEvent) (s : RLState) (tcur : Nat) (past : List RLEvent) (s2 : RLState),
      timesMono tcur es →
      (∀ e ∈ past, e.time ≤ tcur) →
      (∀ τ ∈ s.reqTimes, τ ≤ tcur) →
      (∀ t, tcur ≤ t → (pruneReqs t s.reqTimes).length = admitCount past t) →
      (∀ t, admitCount past t ≤ rpm) →
      runTrace rpm tpm s es = some s2 →
      ∀ t, admitCount (past ++ es) t ≤ rpm := by
  intro es
  induction es with
  | nil =>
    intro s tcur past s2 _ _ _ _ hb1 _
    simpa using hb1
  | cons e es ih =>
    intro s tcur past s2 hmono hpast hreq hreqc hb1 hrun
    obtain ⟨hte, hmono2⟩ := hmono
    unfold runTrace at hrun
    cases hstep : rlStep rpm tpm s e with
    | none => rw [hstep] at hrun; cases hrun
    | some s1 =>
      rw [hstep] at hrun
      cases e with
      | adm now est =>
        have hte2 : tcur ≤ now := hte
        simp only [rlStep] at hstep
        by_cases hcan : admissionOk rpm tpm s now est = true
        · rw [if_pos hcan] at hstep
          injection hstep with hs1
          unfold admissionOk at hcan
          simp only [Bool.and_eq_true, decide_eq_true_eq] at hcan
          have hrpmlt := hcan.1
          have hreqb : ∀ τ ∈ s.reqTimes, τ ≤ now := fun τ h => le_trans (hreq τ h) hte2
          have hpast2 : ∀ e2 ∈ past ++ [RLEvent.adm now est], e2.time ≤ now := by
            intro e2 he2
            rcases List.mem_append.mp he2 with h | h
            · exact le_trans (hpast e2 h) hte2
            · simp only [List.mem_singleton] at h
              subst h
              exact le_rfl
          have hreq1 : ∀ τ ∈ s1.reqTimes, τ ≤ now := by
            rw [← hs1]
            intro τ hτ
            rcases List.mem_append.mp hτ with h | h
            · exact hreqb τ (List.mem_of_mem_filter h)
            · simp only [List.mem_singleton] at h
              omega
          have hreqc1 : ∀ t, now ≤ t → (pruneReqs t s1.reqTimes).length
              = admitCount (past ++ [RLEvent.adm now est]) t := by
            intro t ht
            rw [← hs1]
            show (pruneReqs t (pruneReqs now s.reqTimes ++ [now])).length = _
            rw [pruneReqs_append, List.length_append,
              pruneReqs_idem now t s.reqTimes ht hreqb, hreqc t (le_trans hte2 ht),
              admitCount_append, admitCount_adm_single]
            congr 1
            by_cases hw : t - now < 60 <;> simp [pruneReqs, inWindow, hw, ht]
          have hb1x : ∀ t, admitCount (past ++ [RLEvent.adm now est]) t ≤ rpm := by
            intro t
            rw [admitCount_append, admitCount_adm_single]
            by_cases hw : inWindow t now = true
            · rw [if_pos hw]
              have hle2 : now ≤ t := by
                simp only [inWindow, Bool.and_eq_true, decide_eq_true_eq] at hw
                exact hw.1
              have hm := admitCount_mono past now t hle2
                (fun e2 he2 => le_trans (hpast e2 he2) hte2)
              have heq := hreqc now hte2
              omega
            · rw [if_neg hw]
              have := hb1 t
              omega
          have hres := ih s1 now (past ++ [RLEvent.adm now est]) s2 hmono2 hpast2
            hreq1 hreqc1 hb1x hrun
          intro t
          have h2 := hres t
          rwa [List.append_assoc, List.singleton_append] at h2
        · rw [if_neg hcan] at hstep
          cases hstep
      | correct now est actual =>
        have hte2 : tcur ≤ now := hte
        simp only [rlStep] at hstep
        have hpast2 : ∀ e2 ∈ past ++ [RLEvent.correct now est actual], e2.time ≤ now := by
          intro e2 he2
          rcases List.mem_append.mp he2 with h | h
          · exact le_trans (hpast e2 h) hte2
          · simp only [List.mem_singleton] at h
            subst h
            exact le_rfl
        have hb1x : ∀ t, admitCount (past ++ [RLEvent.correct now est actual]) t ≤ rpm := by
          intro t
          rw [admitCount_append, admitCount_correct_single]
          have := hb1 t
          omega
        have hs1r : s1.reqTimes = s.reqTimes := by
          by_cases hlt : est < actual
          · rw [if_pos hlt] at hstep
            injection hstep with hs1
            rw [← hs1]
          · rw [if_neg hlt] at hstep
            injection hstep with hs1
            rw [← hs1]
        have hreq1 : ∀ τ ∈ s1.reqTimes, τ ≤ now := by
          rw [hs1r]
          exact fun τ h => le_trans (hreq τ h) hte2
        have hreqc1 : ∀ t, now ≤ t → (pruneReqs t s1.reqTimes).length
            = admitCount (past ++ [RLEvent.correct now est actual]) t := by
          intro t ht
          rw [hs1r, admitCount_append, admitCount_correct_single]
          have := hreqc t (le_trans hte2 ht)
          omega
        have hres := ih s1 now (past ++ [RLEvent.correct now est actual]) s2 hmono2 hpast2
          hreq1 hreqc1 hb1x hrun
        intro t
        have h2 := hres t
        rwa [List.append_assoc, List.singleton_append] at h2

/-- Claim C1, corrected/amended: for every execution of
`RateLimiter.wait_for_capacity` (a monotone trace of admissions and
corrections accepted by the limiter, started from the empty state) and every
trailing 60-second window: the number of admitted requests in the window is
at most `rpm_limit`, UNCONDITIONALLY — in particular also on traces
containing an estimate above `tpm_limit`; and the sum of reserved estimated
costs in the window is at most `tpm_limit` plus the overshoot corrections in
the window, PROVIDED every single call's estimated cost is at most
`tpm_limit`. The frozen claim's "in particular" clause is false: when a
single estimate exceeds `tpm_limit`, the TPM check's
`if self.token_timestamps:` guard falls through on an empty window and the
request is admitted, putting the window sum above `tpm_limit` (see the
counterexample). (In the program as shipped, `update_actual_usage` is never
invoked — its only call site is commented out — so correction events are
allowed here but never occur.) -/
theorem claim1_thm (rpm tpm : Nat) (es : List RLEvent) (s : RLState)
    (hmono : timesMono 0 es)
    (hrun : runTrace rpm tpm { reqTimes := [], tokEntries := [] } es = some s) :
    (∀ t, admitCount es t ≤ rpm)
    ∧ ((∀ now est, RLEvent.adm now est ∈ es → est ≤ tpm) →
        ∀ t, admitCost es t ≤ tpm + correctCost es t) := by
  constructor
  · have h := runTrace_rpm_bound rpm tpm es { reqTimes := [], tokEntries := [] } 0 [] s hmono
      (fun e he => absurd he (List.not_mem_nil e))
      (fun τ hτ => absurd hτ (List.not_mem_nil τ))
      (fun t _ => rfl)
      (fun t => Nat.zero_le rpm)
      hrun
    intro t
    simpa using h t
  · intro hest
    have h := runTrace_bound rpm tpm es { reqTimes := [], tokEntries := [] } 0 [] s hmono
      (fun e he => absurd he (List.not_mem_nil e))
      (fun τ hτ => absurd hτ (List.not_mem_nil τ))
      (fun t _ => rfl)
      (fun e he => absurd he (List.not_mem_nil e))
      (fun t _ => rfl)
      (fun t => Nat.zero_le rpm)
      (fun t => Nat.zero_le _)
      hest hrun
    intro t
    simpa using h.2 t

/-- Claim C1 witness: the theorem applied to two concrete runs. Under
`rpm_limit = 2`, `tpm_limit = 1000`, two back-to-back admissions of cost
100 and 200 satisfy both bounds in the window ending at `t = 30`; and the
request-count bound also holds for the run admitting a single 30000-token
estimate under `tpm_limit = 25000` — a trace with an estimate above the
token limit, to which the token-bound hypothesis does not apply. -/
theorem claim1_witness :
    admitCount [RLEvent.adm 0 100, RLEvent.adm 5 200] 30 ≤ 2
    ∧ admitCost [RLEvent.adm 0 100, RLEvent.adm 5 200] 30
        ≤ 1000 + correctCost [RLEvent.adm 0 100, RLEvent.adm 5 200] 30
    ∧ admitCount [RLEvent.adm 0 30000] 0 ≤ 20 :=
  ⟨(claim1_thm 2 1000 [RLEvent.adm 0 100, RLEvent.adm 5 200]
      { reqTimes := [0, 5], tokEntries := [(100, 0), (200, 5)] }
      ⟨by decide, by decide, trivial⟩ rfl).1 30,
   (claim1_thm 2 1000 [RLEvent.adm 0 100, RLEvent.adm 5 200]
      { reqTimes := [0, 5], tokEntries := [(100, 0), (200, 5)] }
      ⟨by decide, by decide, trivial⟩ rfl).2
     (by
       intro now est h
       simp only [List.mem_cons, List.not_mem_nil, or_false] at h
       rcases h with h | h <;> (injection h with h1 h2; subst h2; decide)) 30,
   (claim1_thm 20 25000 [RLEvent.adm 0 30000]
      { reqTimes := [0], tokEntries := [(30000, 0)] }
      ⟨by decide, trivial⟩ rfl).1 0⟩

/-- Claim C1 counterexample: with the Groq free-tier limits `rpm_limit = 20`,
`tpm_limit = 25000`, a single call estimated at 30000 tokens is admitted
against the empty token window (the `if self.token_timestamps:` guard falls
through), and the reserved-cost sum of the trailing window is then 30000,
exceeding `tpm_limit` with no in-flight correction to excuse it — refuting
the frozen claim's token bound for single costs above `tpm_limit`. -/
theorem claim1_counterexample :
    runTrace 20 25000 { reqTimes := [], tokEntries := [] } [RLEvent.adm 0 30000]
      = some { reqTimes := [0], tokEntries := [(30000, 0)] }
    ∧ correctCost [RLEvent.adm 0 30000] 0 = 0
    ∧ admitCost [RLEvent.adm 0 30000] 0 = 30000
    ∧ ¬ (admitCost [RLEvent.adm 0 30000] 0 ≤ 25000) :=
  ⟨rfl, rfl, rfl, by decide⟩
